import Mathlib

/-!
# AVM interpreter: verification of the state layer, interpreter and commitment

Shallow embedding of the consensus-critical parts of the Atomicals Virtual
Machine (`src/script/*`, `src/big_int.cpp`): hex key encoding, the
transactional KV/FT/NFT state context, withdraw opcodes, the authorization
opcode, the final-stack verdict of the verifier, script-number
serialization, the optimized condition stack and the state commitment.

Conventions used throughout:
* a byte is a `Nat` (well-formed data keeps it below 256);
* a C++ `std::vector` used as a stack is a `List` in the same order, so the
  vector's `back()` is the list's last element;
* the `nlohmann::json` object type (vendored `json.hpp`, not part of the
  `src` tree) is modelled from the spec: an insertion-ordered string-keyed
  map, here an association list without duplicate keys.
-/

namespace AVM

/-- A byte: `uint8_t`. Well-formed data keeps the value below 256. -/
abbrev Byte := Nat

/-- A byte string (`std::vector<uint8_t>` / `valtype`). -/
abbrev Bytes := List Byte

/-- Lowercase hex digit for a nibble, as produced by `HexStr`. -/
def hexDigitChar (n : Nat) : Char :=
  if n < 10 then Char.ofNat (48 + n) else Char.ofNat (87 + n)

/-- `HexStr` from `util/strencodings.h`: lowercase hex, two digits per byte. -/
def HexStr (bs : Bytes) : String :=
  String.mk (bs.flatMap fun b => [hexDigitChar (b / 16), hexDigitChar (b % 16)])

/-- `HexStrWith00Null` (`script_utils.h`): the empty byte string encodes as
the literal two-character string `00`; otherwise plain `HexStr`. -/
def HexStrWith00Null (bs : Bytes) : String :=
  if bs.length = 0 then "00" else HexStr bs

/-- Value of one lowercase hex digit character. -/
def hexCharVal (c : Char) : Nat :=
  if 97 ≤ c.toNat then c.toNat - 87 else c.toNat - 48

/-- Decode pairs of hex characters into bytes (the characters of the map
keys are always valid lowercase hex of even length, per `isHexStr`). -/
def parseHexChars : List Char → Bytes
  | c1 :: c2 :: rest => (hexCharVal c1 * 16 + hexCharVal c2) :: parseHexChars rest
  | _ => []

/-- `ParseHex` from `util/strencodings.h`, on the valid inputs used here. -/
def ParseHex (s : String) : Bytes :=
  parseHexChars s.toList

/-- Modelled from the spec: the `nlohmann::json` object type preserves
insertion order ("The canonical iteration order is the insertion order").
An association list with unique keys; `json.hpp` is a vendored header that
is not part of the `src` tree. -/
abbrev JMap (α : Type) := List (String × α)

/-- Lookup (`json::find` / `contains`). -/
def jget? {α : Type} : JMap α → String → Option α
  | [], _ => none
  | (k', v') :: rest, k => if k' = k then some v' else jget? rest k

/-- `contains`. -/
def jcontains {α : Type} (m : JMap α) (k : String) : Bool :=
  (jget? m k).isSome

/-- Assignment `m[k] = v`: overwrite in place if the key is present,
append at the end otherwise (insertion order preserved). -/
def jinsert {α : Type} : JMap α → String → α → JMap α
  | [], k, v => [(k, v)]
  | (k', v') :: rest, k, v =>
      if k' = k then (k, v) :: rest else (k', v') :: jinsert rest k v

/-- `erase(k)`: remove the entry for `k` if present. A JSON object holds
each key at most once, so removing every occurrence from the association
list is the same operation on the states that arise. -/
def jerase {α : Type} : JMap α → String → JMap α
  | [], _ => []
  | (k', v') :: rest, k =>
      if k' = k then jerase rest k else (k', v') :: jerase rest k

/-- `ensureKeyspaceExists` followed by a mutation of the keyspace node:
the node is created empty at the end if missing, then the mutation is
applied to it in place. -/
def ensureThen {α : Type} (m : JMap α) (k : String) (dflt : α) (f : α → α) : JMap α :=
  jinsert m k (f ((jget? m k).getD dflt))

/-- The transactional KV portion of `ScriptStateContext`: the current
state, the net updates and the delete markers. -/
structure KvState where
  state : JMap (JMap String)
  updates : JMap (JMap String)
  deletes : JMap (JMap Bool)
  deriving Repr, DecidableEq

/-- `ScriptStateContext::contractStatePut`: keys and value are serialized
with `HexStrWith00Null`; the pair is written into the state and the
updates, and its delete marker is erased. -/
def contractStatePut (st : KvState) (keySpace keyName value : Bytes) : KvState :=
  let keySpaceStr := HexStrWith00Null keySpace
  let keyNameStr := HexStrWith00Null keyName
  let valueStr := HexStrWith00Null value
  { state := ensureThen st.state keySpaceStr [] fun node => jinsert node keyNameStr valueStr
    updates := ensureThen st.updates keySpaceStr [] fun node => jinsert node keyNameStr valueStr
    deletes := ensureThen st.deletes keySpaceStr [] fun node => jerase node keyNameStr }

/-- `ScriptStateContext::contractStateDelete`: the pair is erased from the
state and the updates and marked `true` in the deletes. -/
def contractStateDelete (st : KvState) (keySpace keyName : Bytes) : KvState :=
  let keySpaceStr := HexStrWith00Null keySpace
  let keyNameStr := HexStrWith00Null keyName
  { state := ensureThen st.state keySpaceStr [] fun node => jerase node keyNameStr
    updates := ensureThen st.updates keySpaceStr [] fun node => jerase node keyNameStr
    deletes := ensureThen st.deletes keySpaceStr [] fun node => jinsert node keyNameStr true }

/-- `ScriptStateContext::contractStateGet`: note that the source serializes
the lookup keys with plain `HexStr`, not `HexStrWith00Null`. -/
def contractStateGet (st : KvState) (keySpace keyName : Bytes) : Option Bytes :=
  match jget? st.state (HexStr keySpace) with
  | none => none
  | some node =>
      match jget? node (HexStr keyName) with
      | some keyValue => some (ParseHex keyValue)
      | none => none

/-- `ScriptStateContext::contractStateExists`: also keyed with plain
`HexStr`. -/
def contractStateExists (st : KvState) (keySpace keyName : Bytes) : Bool :=
  match jget? st.state (HexStr keySpace) with
  | none => false
  | some node => jcontains node (HexStr keyName)

/-- Membership of a (keyspace, keyname) pair in a two-level map. -/
def pairMem {α : Type} (m : JMap (JMap α)) (ks kn : String) : Bool :=
  match jget? m ks with
  | some node => jcontains node kn
  | none => false

/-- One state-mutating KV opcode: `OP_KV_PUT` or `OP_KV_DELETE`. -/
inductive KvOp where
  | put (keySpace keyName value : Bytes)
  | del (keySpace keyName : Bytes)

/-- Dispatch of a KV opcode to the `ScriptStateContext` operation. -/
def applyKvOp (st : KvState) : KvOp → KvState
  | .put ks kn v => contractStatePut st ks kn v
  | .del ks kn => contractStateDelete st ks kn

/-- A whole execution: the opcode effects in order, starting from the
construction-time state (updates and deletes start empty). -/
def applyKvOps (st : KvState) (ops : List KvOp) : KvState :=
  ops.foldl applyKvOp st

/-- The disjointness invariant of the transactional KV layer. -/
def kvDisjoint (st : KvState) : Prop :=
  ∀ ks kn : String, pairMem st.deletes ks kn = true →
    pairMem st.state ks kn = false ∧ pairMem st.updates ks kn = false

/-- `ScriptStateContext::cleanupKeyspaces`: drop keyspaces whose node is
an empty object (run on state, updates and deletes before emitting). -/
def cleanupKeyspaces {α : Type} (m : JMap (JMap α)) : JMap (JMap α) :=
  m.filter fun p => !p.2.isEmpty

/-- Unique outer keys on all three maps of the KV layer. -/
def KvNodup (st : KvState) : Prop :=
  (st.state.map Prod.fst).Nodup ∧ (st.updates.map Prod.fst).Nodup ∧
    (st.deletes.map Prod.fst).Nodup

/-- `SerializeUint32_t`: `memcpy` of a host `uint32_t`, little-endian on
the consensus platforms; the spec fixes little-endian. -/
def SerializeUint32 (v : Nat) : Bytes :=
  [v % 256, v / 256 % 256, v / 256 ^ 2 % 256, v / 256 ^ 3 % 256]

/-- `SerializeUint64_t`: `memcpy` of a host `uint64_t`, little-endian. -/
def SerializeUint64 (v : Nat) : Bytes :=
  [v % 256, v / 256 % 256, v / 256 ^ 2 % 256, v / 256 ^ 3 % 256,
   v / 256 ^ 4 % 256, v / 256 ^ 5 % 256, v / 256 ^ 6 % 256, v / 256 ^ 7 % 256]

/-- `atoi` on the decimal strings produced by `std::to_string` for the
`uint32_t` output indices of the FT withdraw map. -/
def atoiNat (s : String) : Nat :=
  s.toNat?.getD 0

/-- `GetStateDataVectorOnlyStrings` on the validated two-level state maps:
hex-decoded outer key, then recursively hex-decoded inner key and value. -/
def GetStateDataVectorOnlyStrings (stateData : JMap (JMap String)) : Bytes :=
  stateData.flatMap fun kv =>
    ParseHex kv.1 ++ kv.2.flatMap fun kv2 => ParseHex kv2.1 ++ ParseHex kv2.2

/-- `GetStateDataVectorStringKeyBooleanValue`: hex-decoded keys only; the
boolean values contribute no bytes. -/
def GetStateDataVectorStringKeyBooleanValue (stateData : JMap Bool) : Bytes :=
  stateData.flatMap fun kv => ParseHex kv.1

/-- `GetStateDataVectorStringKeyIntValue`: hex-decoded keys only; the
integer values contribute no bytes. -/
def GetStateDataVectorStringKeyIntValue (stateData : JMap Nat) : Bytes :=
  stateData.flatMap fun kv => ParseHex kv.1

/-- `GetStateDataVectorOnly2LevelStringKeysBooleanValue` (the deletes):
hex-decoded outer and inner keys; boolean values contribute no bytes. -/
def GetStateDataVectorOnly2LevelKeys (stateData : JMap (JMap Bool)) : Bytes :=
  stateData.flatMap fun kv =>
    ParseHex kv.1 ++ kv.2.flatMap fun kv2 => ParseHex kv2.1

/-- Preimage of `GetStateDataHashNftWithdraws`: hex-decoded token id, then
the output index as a little-endian `uint32_t`. -/
def NftWithdrawsVector (data : JMap Nat) : Bytes :=
  data.flatMap fun kv => ParseHex kv.1 ++ SerializeUint32 kv.2

/-- Preimage of `GetStateDataHashFtWithdraws`: hex-decoded token id, then
per inner entry the decimal output-index key as little-endian `uint64_t`
followed by the amount as little-endian `uint64_t`. -/
def FtWithdrawsVector (data : JMap (JMap Nat)) : Bytes :=
  data.flatMap fun kv =>
    ParseHex kv.1 ++ kv.2.flatMap fun kv2 =>
      SerializeUint64 (atoiNat kv2.1) ++ SerializeUint64 kv2.2

/-- `CalculateStateHash` (`script_utils.h`): the chained state commitment.
The SHA-256 primitive is external to the core, so it is a parameter. The
eleven inner hashes are computed and then appended to the previous state
hash in the source's order; the caller in `atomicalsconsensus.cpp` binds
each parameter to the like-named emitted map. -/
def CalculateStateHash (sha : Bytes → Bytes) (prevHash : Bytes)
    (stateFinal stateUpdates : JMap (JMap String)) (stateDeletes : JMap (JMap Bool))
    (ftIncoming : JMap Nat) (nftIncoming : JMap Bool)
    (ftBalances : JMap Nat) (ftBalancesUpdates : JMap Nat)
    (nftBalances : JMap Bool) (nftBalancesUpdates : JMap Bool)
    (ftWithdraws : JMap (JMap Nat)) (nftWithdraws : JMap Nat) : Bytes :=
  let stateFinalHash := sha (GetStateDataVectorOnlyStrings stateFinal)
  let stateUpdatesHash := sha (GetStateDataVectorOnlyStrings stateUpdates)
  let stateDeletesHash := sha (GetStateDataVectorOnly2LevelKeys stateDeletes)
  let nftIncomingHash := sha (GetStateDataVectorStringKeyBooleanValue nftIncoming)
  let ftIncomingHash := sha (GetStateDataVectorStringKeyIntValue ftIncoming)
  let nftBalancesHash := sha (GetStateDataVectorStringKeyBooleanValue nftBalances)
  let ftBalancesHash := sha (GetStateDataVectorStringKeyIntValue ftBalances)
  let nftBalancesUpdatesHash := sha (GetStateDataVectorStringKeyBooleanValue nftBalancesUpdates)
  let ftBalancesUpdatesHash := sha (GetStateDataVectorStringKeyIntValue ftBalancesUpdates)
  let nftWithdrawHash := sha (NftWithdrawsVector nftWithdraws)
  let ftWithdrawHash := sha (FtWithdrawsVector ftWithdraws)
  sha (prevHash ++ nftIncomingHash ++ ftIncomingHash ++ stateFinalHash ++
    stateUpdatesHash ++ stateDeletesHash ++ nftBalancesHash ++ ftBalancesHash ++
    nftBalancesUpdatesHash ++ ftBalancesUpdatesHash ++ nftWithdrawHash ++ ftWithdrawHash)

/-- Little-endian base-256 value of a byte string. -/
def fromLE : Bytes → Nat
  | [] => 0
  | b :: rest => b + 256 * fromLE rest

/-- The emission loop of `avm::serialize` (`serialize_number.h`): emit the
little-endian bytes of the magnitude; on the last byte, add a padding byte
when its high bit is taken, else fold the sign into bit 7. -/
def serLoop (absoluteValue : Nat) (negative : Bool) : Bytes :=
  if h : absoluteValue = 0 then []
  else
    let tmp := absoluteValue % 256
    let rest := absoluteValue / 256
    if rest ≠ 0 then tmp :: serLoop rest negative
    else if 128 ≤ tmp then [tmp, if negative then 128 else 0]
    else [if negative then tmp + 128 else tmp]
termination_by absoluteValue
decreasing_by
  exact Nat.div_lt_self (Nat.pos_of_ne_zero h) (by norm_num)

/-- `avm::serialize`: zero is the empty string, otherwise the sign-magnitude
little-endian minimal encoding. `avm::bigint::serialize` (the OpenSSL
`BN_bn2mpi` route, reversed and stripped of its length prefix) produces
this same canonical form, which the spec fixes as "little-endian magnitude;
the sign bit is bit 7 of the most-significant byte". -/
def avmSerialize (value : Int) : Bytes :=
  if value = 0 then [] else serLoop value.natAbs (decide (value < 0))

/-- `avm::bigint::deserialize`: the sign is bit 7 of the last byte, the
magnitude is the little-endian value with that bit cleared (the OpenSSL
`BN_mpi2bn` reading of the reversed bytes; the spec states the same rule). -/
def bigintDeserialize (s : Bytes) : Int :=
  match s.getLast? with
  | none => 0
  | some last =>
      let mag := fromLE (s.dropLast ++ [last % 128])
      if 128 ≤ last then -(mag : Int) else (mag : Int)

/-- `avm::IsMinimallyEncoded` (`serialize_number.h`). -/
def IsMinimallyEncoded (span : Bytes) (nMaxNumSize : Nat) : Bool :=
  if nMaxNumSize < span.length then false
  else
    match span.getLast? with
    | none => true
    | some last =>
        if last % 128 = 0 then
          match span.dropLast.getLast? with
          | none => false
          | some prev => 128 ≤ prev
        else true

/-- The errors of the `CScriptNum` byte constructor. -/
inductive ScriptNumError where
  | overflow
  | minimalEncoding
  deriving Repr, DecidableEq

/-- `CScriptNum`: a tagged `variant<int64_t, bigint>`; the tag is the
variant index, the payload its numeric value. -/
inductive CScriptNum where
  | small (n : Int)
  | big (n : Int)
  deriving Repr, DecidableEq

/-- The numeric value of either variant. -/
def CScriptNum.value : CScriptNum → Int
  | .small n => n
  | .big n => n

/-- The byte constructor `CScriptNum(Span, nMaxNumSize)`: oversized input
throws Overflow, non-minimal input throws MinimalEncoding, otherwise the
result holds `bigint::deserialize` of the bytes (always the big variant). -/
def scriptNumFromBytes (span : Bytes) (nMaxNumSize : Nat) : Except ScriptNumError CScriptNum :=
  if nMaxNumSize < span.length then .error .overflow
  else if ¬ IsMinimallyEncoded span nMaxNumSize then .error .minimalEncoding
  else .ok (.big (bigintDeserialize span))

/-- `CScriptNum::getint`: saturate to the `int` range. -/
def CScriptNum.getint (n : CScriptNum) : Int :=
  if 2147483647 < n.value then 2147483647
  else if n.value < -2147483648 then -2147483648
  else n.value

/-- `CScriptNum::getvch`: both variants serialize to the canonical
minimal sign-magnitude little-endian form. -/
def CScriptNum.getvch (n : CScriptNum) : Bytes :=
  avmSerialize n.value

/-- `operator==` on `CScriptNum`: same tags compare the stored values,
mixed tags compare numerically through `bigint`. -/
def scriptNumEq : CScriptNum → CScriptNum → Bool
  | .small a, .small b => a = b
  | .big a, .big b => a = b
  | .small a, .big b => a = b
  | .big a, .small b => a = b

/-- A transaction output: value in satoshis and locking script. -/
structure TxOut where
  nValue : Int
  scriptPubKey : Bytes
  deriving Repr, DecidableEq

/-- A transaction input's previous outpoint. -/
structure TxIn where
  prevoutHash : Bytes
  prevoutN : Nat
  deriving Repr, DecidableEq

/-- The transaction view consumed by the interpreter. -/
structure AvmTx where
  vin : List TxIn
  vout : List TxOut
  deriving Repr, DecidableEq

/-- The script errors reached by the embedded fragments. -/
inductive ScriptError where
  | INVALID_STACK_OPERATION
  | INVALID_ATOMICAL_REF_SIZE
  | INVALID_AVM_WITHDRAW_NFT_OUTPUT_INDEX
  | INVALID_AVM_WITHDRAW_NFT
  | INVALID_AVM_WITHDRAW_FT_OUTPUT_INDEX
  | INVALID_AVM_WITHDRAW_FT_AMOUNT
  | INVALID_AVM_WITHDRAW_FT
  | INVALID_AVM_CHECKAUTHSIG
  | INVALID_AVM_CHECKAUTHSIGNULL
  | INVALID_AVM_CHECKAUTHSIGVERIFY
  | SIG_PUSHONLY
  | EVAL_FALSE
  | CLEANSTACK
  | UNKNOWN
  deriving Repr, DecidableEq

/-- `base_blob<288>::GetHex` renders the 36 id bytes reversed as lowercase
hex (the `uint288` arithmetic header is outside the `src` tree; the
rendering direction does not affect the claims, only which hex string
keys the token maps use). -/
def uint288GetHex (id : Bytes) : String :=
  HexStr id.reverse

/-- A `std::map` keyed by `uint288` token ids. Iteration is sorted in the
source; only lookup and insertion semantics matter to the claims, so the
entry list's order is left as insertion order here. -/
abbrev BMap (α : Type) := List (Bytes × α)

/-- `std::map::find`. -/
def bmapGet? {α : Type} : BMap α → Bytes → Option α
  | [], _ => none
  | (k', v') :: rest, k => if k' = k then some v' else bmapGet? rest k

/-- `std::map::insert`: inserts only when the key is absent; an existing
entry is left unchanged. -/
def bmapInsertNoReplace {α : Type} (m : BMap α) (k : Bytes) (v : α) : BMap α :=
  if (bmapGet? m k).isSome then m else m ++ [(k, v)]

/-- Overwrite through an iterator (`it->second = ...`). -/
def bmapSet {α : Type} : BMap α → Bytes → α → BMap α
  | [], k, v => [(k, v)]
  | (k', v') :: rest, k, v =>
      if k' = k then (k, v) :: rest else (k', v') :: bmapSet rest k v

/-- A `std::map<uint32_t, uint64_t>` of per-output withdraw amounts. -/
abbrev NMap := List (Nat × Nat)

/-- `std::map::find` on output indices. -/
def nmapGet? : NMap → Nat → Option Nat
  | [], _ => none
  | (k', v') :: rest, k => if k' = k then some v' else nmapGet? rest k

/-- `std::map::insert` on output indices: no overwrite of an existing
entry. -/
def nmapInsertNoReplace (m : NMap) (k : Nat) (v : Nat) : NMap :=
  if (nmapGet? m k).isSome then m else m ++ [(k, v)]

/-- The token-balance portion of `ScriptStateContext`. -/
structure TokenState where
  ftState : JMap Nat
  nftState : JMap Bool
  ftBalancesUpdates : JMap Nat
  nftBalancesUpdates : JMap Bool
  ftWithdrawMap : BMap NMap
  nftWithdrawMap : BMap Nat
  deriving Repr, DecidableEq

/-- `ScriptStateContext::contractWithdrawFt`: requires a positive amount
covered by the available balance; decrements (erasing a zero balance),
records the new balance in the updates, and inserts the intent into the
per-token output map (`std::map::insert`, so an existing intent for the
same output index is left unchanged). -/
def contractWithdrawFt (st : TokenState) (ftId : Bytes) (index : Nat)
    (withdrawAmount : Nat) : Option TokenState :=
  if withdrawAmount = 0 then none
  else
    let ftIdStr := uint288GetHex ftId
    match jget? st.ftState ftIdStr with
    | none => none
    | some availableBalance =>
        if availableBalance < withdrawAmount then none
        else
          let updatedBalance := availableBalance - withdrawAmount
          let ftState2 :=
            if updatedBalance = 0 then jerase st.ftState ftIdStr
            else jinsert st.ftState ftIdStr updatedBalance
          let outer := bmapInsertNoReplace st.ftWithdrawMap ftId []
          let inner := (bmapGet? outer ftId).getD []
          some { st with
            ftState := ftState2
            ftBalancesUpdates := jinsert st.ftBalancesUpdates ftIdStr updatedBalance
            ftWithdrawMap := bmapSet outer ftId (nmapInsertNoReplace inner index withdrawAmount) }

/-- `ScriptStateContext::contractWithdrawNft`: the id must be present;
remove it, set its update flag to false and record the intent. -/
def contractWithdrawNft (st : TokenState) (nftId : Bytes) (index : Nat) : Option TokenState :=
  let nftIdStr := uint288GetHex nftId
  if ¬ jcontains st.nftState nftIdStr then none
  else
    some { st with
      nftState := jerase st.nftState nftIdStr
      nftBalancesUpdates := jinsert st.nftBalancesUpdates nftIdStr false
      nftWithdrawMap := bmapInsertNoReplace st.nftWithdrawMap nftId index }

/-- `stacktop(-i)`: the element `i` positions below the vector's back. -/
def stacktop (stack : List Bytes) (i : Nat) : Bytes :=
  stack.getD (stack.length - i) []

/-- The `OP_NFT_WITHDRAW` case of `EvalScript` (binary AVM block): as in
the source, the 36-byte check and the output-index decode are both applied
to `vch1 = stacktop(-2)`, and the token id is taken from
`vch2 = stacktop(-1)`. A `CScriptNum` constructor throw is caught by the
interpreter's catch-all as UNKNOWN. -/
def evalOpNftWithdraw (tx : AvmTx) (st : TokenState) (stack : List Bytes) :
    Except ScriptError (TokenState × List Bytes) :=
  if stack.length < 2 then .error .INVALID_STACK_OPERATION
  else
    let vch1 := stacktop stack 2
    let vch2 := stacktop stack 1
    if vch1.length ≠ 36 then .error .INVALID_ATOMICAL_REF_SIZE
    else
      match scriptNumFromBytes vch1 100000 with
      | .error _ => .error .UNKNOWN
      | .ok sn =>
          let index := sn.getint
          if index < 0 ∨ (tx.vout.length : Int) ≤ index then
            .error .INVALID_AVM_WITHDRAW_NFT_OUTPUT_INDEX
          else
            match contractWithdrawNft st vch2 index.toNat with
            | none => .error .INVALID_AVM_WITHDRAW_NFT
            | some stw => .ok (stw, stack.dropLast.dropLast)

/-- The `OP_FT_WITHDRAW` case of `EvalScript` (ternary AVM block):
`vch1 = stacktop(-3)` is the amount, `vch2 = stacktop(-2)` the output
index, `vch3 = stacktop(-1)` the 36-byte token id. -/
def evalOpFtWithdraw (tx : AvmTx) (st : TokenState) (stack : List Bytes) :
    Except ScriptError (TokenState × List Bytes) :=
  if stack.length < 3 then .error .INVALID_STACK_OPERATION
  else
    let vch1 := stacktop stack 3
    let vch2 := stacktop stack 2
    let vch3 := stacktop stack 1
    if vch3.length ≠ 36 then .error .INVALID_ATOMICAL_REF_SIZE
    else
      match scriptNumFromBytes vch2 100000 with
      | .error _ => .error .UNKNOWN
      | .ok sn2 =>
          let index := sn2.getint
          if index < 0 ∨ (tx.vout.length : Int) ≤ index then
            .error .INVALID_AVM_WITHDRAW_FT_OUTPUT_INDEX
          else
            let output := (tx.vout.getD index.toNat ⟨0, []⟩)
            match scriptNumFromBytes vch1 100000 with
            | .error _ => .error .UNKNOWN
            | .ok sn1 =>
                let withdrawAmount := sn1.getint
                if withdrawAmount ≤ 0 ∨ output.nValue < withdrawAmount then
                  .error .INVALID_AVM_WITHDRAW_FT_AMOUNT
                else
                  match contractWithdrawFt st vch3 index.toNat withdrawAmount.toNat with
                  | none => .error .INVALID_AVM_WITHDRAW_FT
                  | some stw => .ok (stw, stack.dropLast.dropLast.dropLast)

/-- `GetScriptOp` (`script.cpp`): read one opcode and its push payload;
`none` is a malformed read (truncated PUSHDATA length or payload). Returns
the opcode, the payload and the remaining script. -/
def getScriptOp (s : Bytes) : Option (Nat × Bytes × Bytes) :=
  match s with
  | [] => none
  | opcode :: rest =>
      if opcode ≤ 78 then
        let sized? : Option (Nat × Bytes) :=
          if opcode < 76 then some (opcode, rest)
          else if opcode = 76 then
            match rest with
            | b :: r => some (b, r)
            | [] => none
          else if opcode = 77 then
            match rest with
            | b0 :: b1 :: r => some (b0 + 256 * b1, r)
            | _ => none
          else
            match rest with
            | b0 :: b1 :: b2 :: b3 :: r =>
                some (b0 + 256 * b1 + 65536 * b2 + 16777216 * b3, r)
            | _ => none
        match sized? with
        | none => none
        | some (nSize, r) =>
            if r.length < nSize then none
            else some (opcode, r.take nSize, r.drop nSize)
      else some (opcode, [], rest)

/-- A successful `GetScriptOp` consumes at least the opcode byte. -/
theorem getScriptOp_rest_lt (s : Bytes) (op : Nat) (data rest : Bytes)
    (h : getScriptOp s = some (op, data, rest)) : rest.length < s.length := by
  match s with
  | [] => simp [getScriptOp] at h
  | opcode :: r =>
      unfold getScriptOp at h
      dsimp only at h
      by_cases hle : opcode ≤ 78
      · rw [if_pos hle] at h
        by_cases h1 : opcode < 76
        · rw [if_pos h1] at h
          dsimp only at h
          split at h
          · exact absurd h (by simp)
          · simp only [Option.some.injEq, Prod.mk.injEq] at h
            obtain ⟨-, -, h3⟩ := h
            subst h3
            simp only [List.length_cons, List.length_drop]
            omega
        · rw [if_neg h1] at h
          by_cases h2 : opcode = 76
          · rw [if_pos h2] at h
            match r with
            | [] => simp at h
            | b :: r2 =>
                dsimp only at h
                split at h
                · exact absurd h (by simp)
                · simp only [Option.some.injEq, Prod.mk.injEq] at h
                  obtain ⟨-, -, h3⟩ := h
                  subst h3
                  simp only [List.length_cons, List.length_drop]
                  omega
          · rw [if_neg h2] at h
            by_cases h3 : opcode = 77
            · rw [if_pos h3] at h
              match r with
              | [] => simp at h
              | [b0] => simp at h
              | b0 :: b1 :: r2 =>
                  dsimp only at h
                  split at h
                  · exact absurd h (by simp)
                  · simp only [Option.some.injEq, Prod.mk.injEq] at h
                    obtain ⟨-, -, hr⟩ := h
                    subst hr
                    simp only [List.length_cons, List.length_drop]
                    omega
            · rw [if_neg h3] at h
              match r with
              | [] => simp at h
              | [b0] => simp at h
              | [b0, b1] => simp at h
              | [b0, b1, b2] => simp at h
              | b0 :: b1 :: b2 :: b3 :: r2 =>
                  dsimp only at h
                  split at h
                  · exact absurd h (by simp)
                  · simp only [Option.some.injEq, Prod.mk.injEq] at h
                    obtain ⟨-, -, hr⟩ := h
                    subst hr
                    simp only [List.length_cons, List.length_drop]
                    omega
      · rw [if_neg hle] at h
        simp only [Option.some.injEq, Prod.mk.injEq] at h
        obtain ⟨-, -, hr⟩ := h
        subst hr
        simp

/-- `CScript::IsPushOnly`: every opcode parses and is at most `OP_16`
(0x60). -/
def isPushOnly (s : Bytes) : Bool :=
  if s.isEmpty then true
  else
    match hop : getScriptOp s with
    | none => false
    | some (op, _, rest) => if 96 < op then false else isPushOnly rest
termination_by s.length
decreasing_by
  exact getScriptOp_rest_lt s _ _ _ hop

/-- `CScript::IsUnspendable`: non-empty and starting with OP_RETURN. -/
def isUnspendable (s : Bytes) : Bool :=
  match s with
  | b :: _ => b = 106
  | [] => false

/-- A byte read `*(begin() + i)`: reading past the end of the script
buffer is flagged as an out-of-bounds access instead of yielding a value,
because the C++ read is undefined behaviour there. -/
def readByte (script : Bytes) (i : Nat) : Except Unit Byte :=
  match script.get? i with
  | some b => .ok b
  | none => .error ()

/-- `CScript::IsSigOpReturn` (`script.h`): after the `IsUnspendable` gate
the source reads the marker bytes at offsets 1-4 with no length check
(short-circuiting at the first mismatch), then takes the next push as the
signature. `.error ()` marks an out-of-bounds byte access. -/
def isSigOpReturn (script : Bytes) : Except Unit (Option Bytes) :=
  if ¬ isUnspendable script then .ok none
  else do
    let b1 ← readByte script 1
    if b1 ≠ 3 then pure none
    else do
      let b2 ← readByte script 2
      if b2 ≠ 115 then pure none
      else do
        let b3 ← readByte script 3
        if b3 ≠ 105 then pure none
        else do
          let b4 ← readByte script 4
          if b4 ≠ 103 then pure none
          else
            match getScriptOp (script.drop 5) with
            | none => pure none
            | some (op, item, _) => if 78 < op then pure none else pure (some item)

/-- `ScriptExecutionContext::getAuthSig`: scan the outputs in order and
return the signature of the first sig-OP_RETURN script, if any; an
out-of-bounds read in `IsSigOpReturn` propagates. -/
def getAuthSig : List TxOut → Except Unit (Option Bytes)
  | [] => .ok none
  | o :: rest => do
      match ← isSigOpReturn o.scriptPubKey with
      | some sig => pure (some sig)
      | none => getAuthSig rest

/-- `writeUint64` of `bn.getint()`: the `int` value converted to
`uint64_t` (two's complement) and serialized little-endian. -/
def writeUint64Int (x : Int) : Bytes :=
  SerializeUint64 ((x % 18446744073709551616).toNat)

/-- The output section of the auth message: each output that is not a
sig-OP_RETURN contributes its value (as `writeUint64` of
`CScriptNum(nValue).getint()`) followed by its locking script. -/
def getAuthMessageOutputs : List TxOut → Except Unit Bytes
  | [] => .ok []
  | o :: rest => do
      let r ← isSigOpReturn o.scriptPubKey
      let tail ← getAuthMessageOutputs rest
      match r with
      | some _ => pure tail
      | none => pure (writeUint64Int (CScriptNum.small o.nValue).getint ++ o.scriptPubKey ++ tail)

/-- `ScriptExecutionContext::getAuthMessage`: previous txid and index of
input 0, the unlock+lock script, then the non-sig outputs. -/
def getAuthMessage (tx : AvmTx) (fullScript : Bytes) : Except Unit Bytes := do
  let input := tx.vin.getD 0 ⟨[], 0⟩
  let outs ← getAuthMessageOutputs tx.vout
  pure (input.prevoutHash ++ SerializeUint32 input.prevoutN ++ fullScript ++ outs)

/-- `BaseSignatureChecker::VerifySignature`: Schnorr iff the signature is
exactly 64 bytes, ECDSA otherwise. The curve verifiers are external
primitives, passed as parameters (pubKey, signature, hash). -/
def verifySignature (schnorrV ecdsaV : Bytes → Bytes → Bytes → Bool)
    (vchSig vchPubKey vchHash : Bytes) : Bool :=
  if vchSig.length = 64 then schnorrV vchPubKey vchSig vchHash
  else ecdsaV vchPubKey vchSig vchHash

/-- The `OP_CHECKAUTHSIG` / `OP_CHECKAUTHSIGVERIFY` case of `EvalScript`.
`authSig` is the result of `getAuthSig`; the auth pubKey is present iff
the supplied `pubKey` is non-empty (`getAuthPubKey`); `message` is the
auth message; `sha` is SHA-256 and the two encoding checks
(`sigencoding.h`, outside the `src` tree) are parameters. On success the
validated pubKey is pushed; the source has no pop for the VERIFY variant. -/
def evalCheckAuthSig (sha : Bytes → Bytes)
    (schnorrV ecdsaV : Bytes → Bytes → Bytes → Bool)
    (checkDataSigEnc checkPubKeyEnc : Bytes → Bool) (isVerify : Bool)
    (authSig : Option Bytes) (pubKey : Bytes) (message : Bytes)
    (stack : List Bytes) : Except ScriptError (List Bytes) :=
  let hasAuthSig := authSig.isSome
  let hasAuthPubKey := pubKey ≠ []
  if hasAuthSig ∨ hasAuthPubKey then
    if ¬ hasAuthSig ∨ ¬ hasAuthPubKey ∨ checkDataSigEnc (authSig.getD []) = false ∨
        checkPubKeyEnc pubKey = false then
      .error .INVALID_AVM_CHECKAUTHSIG
    else
      let vchHash := sha message
      if verifySignature schnorrV ecdsaV (authSig.getD []) pubKey vchHash then
        .ok (stack ++ [pubKey])
      else .error .INVALID_AVM_CHECKAUTHSIGNULL
  else
    if isVerify then .error .INVALID_AVM_CHECKAUTHSIGVERIFY
    else .ok (stack ++ [[]])

/-- `CastToBool`: any nonzero byte makes the value true, except a lone
0x80 in the last position (negative zero). -/
def CastToBool : Bytes → Bool
  | [] => false
  | b :: rest =>
      if b ≠ 0 then
        if rest.isEmpty ∧ b = 128 then false else true
      else CastToBool rest

/-- `VerifyScriptAvm` (`interpreter.cpp`), parameterized by the script
evaluator `e` (stack in, script in, stack or script error out): push-only
gate on the unlock script, evaluate unlock then lock, then the final-stack
verdict: empty or untrue top is EVAL_FALSE, a deeper stack is CLEANSTACK. -/
def verifyScriptAvm (e : List Bytes → Bytes → Except ScriptError (List Bytes))
    (scriptSig scriptPubKey : Bytes) : Except ScriptError Unit :=
  if ¬ isPushOnly scriptSig then .error .SIG_PUSHONLY
  else
    match e [] scriptSig with
    | .error err => .error err
    | .ok stack1 =>
        match e stack1 scriptPubKey with
        | .error err => .error err
        | .ok stack =>
            if stack.isEmpty then .error .EVAL_FALSE
            else if CastToBool (stack.getLastD []) = false then .error .EVAL_FALSE
            else if stack.length ≠ 1 then .error .CLEANSTACK
            else .ok ()

/-- The sentinel `NO_FALSE` of the condition stack: `uint32_t` max. -/
def NO_FALSE : Nat := 4294967295

/-- The optimized `ConditionStack` (`interpreter.cpp`): the would-be stack
size and the position of its first false value, both `uint32_t`. -/
structure ConditionStack where
  m_stack_size : Nat
  m_first_false_pos : Nat
  deriving Repr, DecidableEq

/-- `empty()`. -/
def ConditionStack.empty (cs : ConditionStack) : Bool :=
  cs.m_stack_size = 0

/-- `all_true()`. -/
def ConditionStack.all_true (cs : ConditionStack) : Bool :=
  cs.m_first_false_pos = NO_FALSE

/-- `push_back(f)`: a false pushed onto an all-true stack records the
current size as the first false position; the size increments with
`uint32_t` wraparound. -/
def ConditionStack.push_back (cs : ConditionStack) (f : Bool) : ConditionStack :=
  { m_first_false_pos :=
      if cs.m_first_false_pos = NO_FALSE ∧ f = false then cs.m_stack_size
      else cs.m_first_false_pos
    m_stack_size := (cs.m_stack_size + 1) % 4294967296 }

/-- `pop_back()`: the size decrements with `uint32_t` wraparound; popping
the first false makes everything true. -/
def ConditionStack.pop_back (cs : ConditionStack) : ConditionStack :=
  let newSize := (cs.m_stack_size + 4294967296 - 1) % 4294967296
  { m_stack_size := newSize
    m_first_false_pos :=
      if cs.m_first_false_pos = newSize then NO_FALSE else cs.m_first_false_pos }

/-- `toggle_top()`: on an all-true stack the top becomes the first false;
if the top is the first false everything becomes true; otherwise nothing
observable changes. -/
def ConditionStack.toggle_top (cs : ConditionStack) : ConditionStack :=
  if cs.m_first_false_pos = NO_FALSE then
    { cs with m_first_false_pos := (cs.m_stack_size + 4294967296 - 1) % 4294967296 }
  else if cs.m_first_false_pos = (cs.m_stack_size + 4294967296 - 1) % 4294967296 then
    { cs with m_first_false_pos := NO_FALSE }
  else cs

/-- One condition-stack operation. -/
inductive CondOp where
  | push (f : Bool)
  | pop
  | toggle

/-- One step of the optimized stack. -/
def csStep (cs : ConditionStack) : CondOp → ConditionStack
  | .push f => cs.push_back f
  | .pop => cs.pop_back
  | .toggle => cs.toggle_top

/-- Run the optimized stack over an operation sequence. -/
def runCS : ConditionStack → List CondOp → ConditionStack
  | cs, [] => cs
  | cs, op :: rest => runCS (csStep cs op) rest

/-- One step of the naive materialized stack of booleans (bottom first,
top last, as the C++ vector would be). -/
def naiveStep (s : List Bool) : CondOp → List Bool
  | .push f => s ++ [f]
  | .pop => s.dropLast
  | .toggle => s.dropLast ++ [!(s.getLastD false)]

/-- Run the naive stack over an operation sequence. -/
def runNaive : List Bool → List CondOp → List Bool
  | s, [] => s
  | s, op :: rest => runNaive (naiveStep s op) rest

/-- The claim applies `pop_back` and `toggle_top` only to a non-empty
stack: legality of an operation sequence against the naive stack. -/
def naiveOk : List Bool → List CondOp → Prop
  | _, [] => True
  | s, op :: rest =>
      match op with
      | .push f => naiveOk (s ++ [f]) rest
      | .pop => s ≠ [] ∧ naiveOk s.dropLast rest
      | .toggle => s ≠ [] ∧ naiveOk (s.dropLast ++ [!(s.getLastD false)]) rest

/-- Position of the first false on the naive stack, if any. -/
def firstFalse? : List Bool → Option Nat
  | [] => none
  | b :: rest => if b = false then some 0 else (firstFalse? rest).map (· + 1)

/-- The simulation relation between the naive boolean stack and the
optimized condition stack. -/
def csRel (s : List Bool) (cs : ConditionStack) : Prop :=
  cs.m_stack_size = s.length ∧
  cs.m_first_false_pos = (firstFalse? s).getD NO_FALSE

/-- Lookup after assignment: the assigned key reads back the new value and
other keys are unaffected, also in the presence of stale duplicates. -/
theorem jget?_jinsert {α : Type} (m : JMap α) (k k2 : String) (v : α) :
    jget? (jinsert m k v) k2 = if k = k2 then some v else jget? m k2 := by
  induction m with
  | nil =>
      by_cases h : k = k2 <;> simp [jinsert, jget?, h]
  | cons hd tl ih =>
      obtain ⟨ka, va⟩ := hd
      by_cases hka : ka = k
      · subst hka
        by_cases h : ka = k2 <;> simp [jinsert, jget?, h]
      · by_cases h2 : ka = k2
        · subst h2
          have hk2 : ¬ k = ka := fun he => hka he.symm
          simp [jinsert, jget?, hka, hk2]
        · simp [jinsert, jget?, hka, h2, ih]

/-- Lookup after erase: the erased key is gone and other keys are
unaffected. -/
theorem jget?_jerase {α : Type} (m : JMap α) (k k2 : String) :
    jget? (jerase m k) k2 = if k = k2 then none else jget? m k2 := by
  induction m with
  | nil =>
      by_cases h : k = k2 <;> simp [jerase, jget?, h]
  | cons hd tl ih =>
      obtain ⟨ka, va⟩ := hd
      by_cases hka : ka = k
      · subst hka
        by_cases h : ka = k2
        · subst h
          simp [jerase, ih]
        · simp [jerase, jget?, h, ih]
      · by_cases h2 : ka = k2
        · subst h2
          have hk2 : ¬ k = ka := fun he => hka he.symm
          simp [jerase, jget?, hka, hk2]
        · simp [jerase, jget?, hka, h2, ih]

/-- Effect of a put-style mutation (`ensureKeyspaceExists` + inner
assignment) on pair membership: exactly the written pair is added. -/
theorem pairMem_ensure_jinsert {α : Type} (m : JMap (JMap α)) (ks kn a b : String) (v : α) :
    pairMem (ensureThen m ks [] fun node => jinsert node kn v) a b =
      ((ks = a && kn = b) || pairMem m a b) := by
  unfold pairMem ensureThen
  rw [jget?_jinsert]
  by_cases hks : ks = a
  · subst hks
    by_cases hkn : kn = b
    · subst hkn
      simp [jcontains, jget?_jinsert]
    · simp only [if_pos rfl, hkn]
      cases hm : jget? m ks with
      | none => simp [jcontains, jget?_jinsert, hkn, jget?]
      | some node => simp [jcontains, jget?_jinsert, hkn]
  · simp [hks]

/-- Effect of a delete-style mutation on pair membership: exactly the
erased pair is removed. -/
theorem pairMem_ensure_jerase {α : Type} (m : JMap (JMap α)) (ks kn a b : String) :
    pairMem (ensureThen m ks [] fun node => jerase node kn) a b =
      (!(ks = a && kn = b) && pairMem m a b) := by
  unfold pairMem ensureThen
  rw [jget?_jinsert]
  by_cases hks : ks = a
  · subst hks
    by_cases hkn : kn = b
    · subst hkn
      simp [jcontains, jget?_jerase]
    · simp only [if_pos rfl, hkn]
      cases hm : jget? m ks with
      | none => simp [jcontains, jget?_jerase, hkn, jget?]
      | some node => simp [jcontains, jget?_jerase, hkn]
  · simp [hks]

/-- Each KV opcode preserves the disjointness invariant. -/
theorem kvDisjoint_applyKvOp (st : KvState) (op : KvOp) (h : kvDisjoint st) :
    kvDisjoint (applyKvOp st op) := by
  cases op with
  | put ks kn v =>
      intro a b hdel
      rw [applyKvOp, contractStatePut] at hdel ⊢
      simp only [pairMem_ensure_jerase] at hdel
      simp only [pairMem_ensure_jinsert]
      rcases Bool.and_eq_true .. |>.mp (Bool.not_and .. ▸ hdel) |>.imp id id with ⟨hne, hmem⟩
      rcases h a b hmem with ⟨h1, h2⟩
      constructor
      · simp only [h1, Bool.or_false]
        cases hks : decide (HexStrWith00Null ks = a) with
        | false => simp
        | true =>
            cases hkn : decide (HexStrWith00Null kn = b) with
            | false => simp
            | true =>
                exfalso
                simp only [hks, hkn, Bool.and_self, Bool.not_true] at hne
                exact Bool.false_ne_true hne
      · simp only [h2, Bool.or_false]
        cases hks : decide (HexStrWith00Null ks = a) with
        | false => simp
        | true =>
            cases hkn : decide (HexStrWith00Null kn = b) with
            | false => simp
            | true =>
                exfalso
                simp only [hks, hkn, Bool.and_self, Bool.not_true] at hne
                exact Bool.false_ne_true hne
  | del ks kn =>
      intro a b hdel
      rw [applyKvOp, contractStateDelete] at hdel ⊢
      simp only [pairMem_ensure_jinsert] at hdel
      simp only [pairMem_ensure_jerase]
      rcases Bool.or_eq_true .. |>.mp hdel with hpair | hmem
      · rcases Bool.and_eq_true .. |>.mp hpair with ⟨hks, hkn⟩
        simp [hks, hkn]
      · rcases h a b hmem with ⟨h1, h2⟩
        simp [h1, h2]

/-- The invariant holds after any sequence of KV opcodes from an
invariant-satisfying state. -/
theorem kvDisjoint_applyKvOps (ops : List KvOp) (st : KvState) (h : kvDisjoint st) :
    kvDisjoint (applyKvOps st ops) := by
  induction ops generalizing st with
  | nil => exact h
  | cons op rest ih => exact ih _ (kvDisjoint_applyKvOp st op h)

/-- A key that is not among the entries has no lookup result. -/
theorem jget?_eq_none_of_not_mem {α : Type} (m : JMap α) (k : String)
    (h : k ∉ m.map Prod.fst) : jget? m k = none := by
  induction m with
  | nil => rfl
  | cons hd tl ih =>
      obtain ⟨ka, va⟩ := hd
      simp only [List.map_cons, List.mem_cons, not_or] at h
      have hne : ¬ ka = k := fun he => h.1 he.symm
      simpa [jget?, hne] using ih h.2

/-- Keys present after an assignment: the old keys plus the assigned one. -/
theorem mem_map_fst_jinsert {α : Type} (m : JMap α) (k a : String) (v : α) :
    a ∈ (jinsert m k v).map Prod.fst ↔ a ∈ m.map Prod.fst ∨ a = k := by
  induction m with
  | nil => simp [jinsert]
  | cons hd tl ih =>
      obtain ⟨ka, va⟩ := hd
      by_cases hka : ka = k
      · subst hka
        simp only [jinsert, if_pos rfl, List.map_cons, List.mem_cons, if_true,
          eq_self_iff_true]
        tauto
      · simp only [jinsert, if_neg hka, List.map_cons, List.mem_cons, ih]
        tauto

/-- Assignment preserves key uniqueness. -/
theorem nodup_map_fst_jinsert {α : Type} (m : JMap α) (k : String) (v : α)
    (h : (m.map Prod.fst).Nodup) : ((jinsert m k v).map Prod.fst).Nodup := by
  induction m with
  | nil => simp [jinsert]
  | cons hd tl ih =>
      obtain ⟨ka, va⟩ := hd
      simp only [List.map_cons, List.nodup_cons] at h
      by_cases hka : ka = k
      · subst hka
        simpa [jinsert, List.nodup_cons] using h
      · simp only [jinsert, if_neg hka, List.map_cons, List.nodup_cons]
        refine ⟨fun hmem => ?_, ih h.2⟩
        rcases (mem_map_fst_jinsert tl k ka v).mp hmem with hin | heq
        · exact h.1 hin
        · exact hka heq

/-- Unfolding of the cleanup pass on one entry. -/
theorem cleanupKeyspaces_cons {α : Type} (ka : String) (node : JMap α)
    (tl : JMap (JMap α)) :
    cleanupKeyspaces ((ka, node) :: tl) =
      if node.isEmpty then cleanupKeyspaces tl
      else (ka, node) :: cleanupKeyspaces tl := by
  by_cases h : node.isEmpty <;> simp [cleanupKeyspaces, List.filter_cons, h]

/-- Lookup after the keyspace cleanup pass, for unique outer keys: only
lookups that found an empty node change, and those become misses. -/
theorem jget?_cleanupKeyspaces {α : Type} (m : JMap (JMap α)) (a : String)
    (h : (m.map Prod.fst).Nodup) :
    jget? (cleanupKeyspaces m) a =
      match jget? m a with
      | some node => if node.isEmpty then none else some node
      | none => none := by
  induction m with
  | nil => rfl
  | cons hd tl ih =>
      obtain ⟨ka, node⟩ := hd
      simp only [List.map_cons, List.nodup_cons] at h
      rw [cleanupKeyspaces_cons]
      by_cases ha : ka = a
      · subst ha
        by_cases hempty : node.isEmpty
        · have h1 : jget? (cleanupKeyspaces tl) ka = none := by
            apply jget?_eq_none_of_not_mem
            intro hmem
            obtain ⟨p, hp, hfst⟩ := List.mem_map.mp hmem
            exact h.1 (List.mem_map.mpr ⟨p, (List.mem_filter.mp hp).1, hfst⟩)
          simp [hempty, jget?, h1]
        · simp [hempty, jget?]
      · by_cases hempty : node.isEmpty <;> simp [hempty, jget?, ha, ih h.2]

/-- Pair membership is invariant under the keyspace cleanup pass when the
outer keys are unique: a pair lives in a non-empty node, and those nodes
are kept. -/
theorem pairMem_cleanupKeyspaces {α : Type} (m : JMap (JMap α)) (a b : String)
    (h : (m.map Prod.fst).Nodup) :
    pairMem (cleanupKeyspaces m) a b = pairMem m a b := by
  unfold pairMem
  rw [jget?_cleanupKeyspaces m a h]
  cases hm : jget? m a with
  | none => rfl
  | some node =>
      by_cases hempty : node.isEmpty
      · have hnil : node = [] := by
          cases node with
          | nil => rfl
          | cons x xs => simp [List.isEmpty] at hempty
        subst hnil
        simp [hempty, jcontains, jget?]
      · simp [hempty]

/-- KV opcodes preserve key uniqueness of the three maps. -/
theorem kvNodup_applyKvOp (st : KvState) (op : KvOp) (h : KvNodup st) :
    KvNodup (applyKvOp st op) := by
  obtain ⟨h1, h2, h3⟩ := h
  cases op with
  | put ks kn v =>
      exact ⟨nodup_map_fst_jinsert _ _ _ h1, nodup_map_fst_jinsert _ _ _ h2,
        nodup_map_fst_jinsert _ _ _ h3⟩
  | del ks kn =>
      exact ⟨nodup_map_fst_jinsert _ _ _ h1, nodup_map_fst_jinsert _ _ _ h2,
        nodup_map_fst_jinsert _ _ _ h3⟩

/-- Key uniqueness after a whole opcode sequence. -/
theorem kvNodup_applyKvOps (ops : List KvOp) (st : KvState) (h : KvNodup st) :
    KvNodup (applyKvOps st ops) := by
  induction ops generalizing st with
  | nil => exact h
  | cons op rest ih => exact ih _ (kvNodup_applyKvOp st op h)

/-- C5: the put/get round-trip fails in the source on empty byte keys and
on empty values. `contractStatePut` serializes the empty keyspace and
keyname as the string `00` and the empty value as the string `00`, but
`contractStateGet` and `contractStateExists` look keys up under plain
`HexStr` (the empty string), so a pair written under an empty keyspace or
keyname is not found again, and an empty value reads back as the single
byte `0x00`. -/
theorem contractStatePut_roundTrip_fails_on_empty :
    contractStateExists (contractStatePut ⟨[], [], []⟩ [] [] [1]) [] [] = false ∧
    contractStateGet (contractStatePut ⟨[], [], []⟩ [] [] [1]) [] [] = none ∧
    contractStateGet (contractStatePut ⟨[], [], []⟩ [110] [107] []) [110] [107] =
      some [0] := by
  decide

/-- C6: after any sequence of `OP_KV_PUT` / `OP_KV_DELETE` effects from the
construction-time state (updates and deletes empty), every pair marked in
`kvDeletes` is absent from both the state and `kvUpdates`; the same holds
for the emitted maps after the keyspace cleanup pass, provided the initial
contract state has unique keyspace keys (a JSON object always does). -/
theorem kv_deletes_disjoint_from_state_and_updates (ops : List KvOp)
    (kv0 : JMap (JMap String)) (ks kn : String)
    (hnodup : (kv0.map Prod.fst).Nodup) :
    (pairMem (applyKvOps ⟨kv0, [], []⟩ ops).deletes ks kn = true →
      pairMem (applyKvOps ⟨kv0, [], []⟩ ops).state ks kn = false ∧
      pairMem (applyKvOps ⟨kv0, [], []⟩ ops).updates ks kn = false) ∧
    (pairMem (cleanupKeyspaces (applyKvOps ⟨kv0, [], []⟩ ops).deletes) ks kn = true →
      pairMem (cleanupKeyspaces (applyKvOps ⟨kv0, [], []⟩ ops).state) ks kn = false ∧
      pairMem (cleanupKeyspaces (applyKvOps ⟨kv0, [], []⟩ ops).updates) ks kn = false) := by
  have hinv : kvDisjoint (applyKvOps ⟨kv0, [], []⟩ ops) := by
    apply kvDisjoint_applyKvOps
    intro a b hdel
    simp [pairMem, jget?] at hdel
  have hnd : KvNodup (applyKvOps ⟨kv0, [], []⟩ ops) := by
    apply kvNodup_applyKvOps
    exact ⟨hnodup, List.nodup_nil, List.nodup_nil⟩
  obtain ⟨hnd1, hnd2, hnd3⟩ := hnd
  refine ⟨hinv ks kn, fun hdel => ?_⟩
  rw [pairMem_cleanupKeyspaces _ _ _ hnd3] at hdel
  rw [pairMem_cleanupKeyspaces _ _ _ hnd1, pairMem_cleanupKeyspaces _ _ _ hnd2]
  exact hinv ks kn hdel

/-- Witness for C6 at a concrete run: put then delete the same pair; the
pair is marked deleted and absent from state and updates. -/
theorem kv_deletes_disjoint_from_state_and_updates_witness :
    pairMem (applyKvOps ⟨[], [], []⟩ [KvOp.put [1] [2] [3], KvOp.del [1] [2]]).state
        "01" "02" = false ∧
    pairMem (applyKvOps ⟨[], [], []⟩ [KvOp.put [1] [2] [3], KvOp.del [1] [2]]).updates
        "01" "02" = false :=
  (kv_deletes_disjoint_from_state_and_updates [KvOp.put [1] [2] [3], KvOp.del [1] [2]]
    [] "01" "02" List.nodup_nil).1 (by decide)

/-- C1: the emitted commitment is SHA-256 of the previous state hash
followed by the eleven inner hashes in the order H(nftIncoming),
H(ftIncoming), H(kvFinal), H(kvUpdates), H(kvDeletes), H(nftFinal),
H(ftFinal), H(nftUpdates), H(ftUpdates), H(nftWithdraws), H(ftWithdraws),
each inner hash over the canonical serialization of the claim: kv maps
hex-decode keys and values recursively, deletes and balance maps emit key
bytes only, NFT withdraws append the little-endian u32 output index, FT
withdraws append little-endian u64 output index and amount, all in map
iteration order. -/
theorem state_commitment_formula (sha : Bytes → Bytes) (prevStateHash : Bytes)
    (kvFinal kvUpdates : JMap (JMap String)) (kvDeletes : JMap (JMap Bool))
    (ftIncoming ftFinal ftUpdates : JMap Nat)
    (nftIncoming nftFinal nftUpdates : JMap Bool)
    (ftWithdraws : JMap (JMap Nat)) (nftWithdraws : JMap Nat) :
    CalculateStateHash sha prevStateHash kvFinal kvUpdates kvDeletes
        ftIncoming nftIncoming ftFinal ftUpdates nftFinal nftUpdates
        ftWithdraws nftWithdraws =
      sha (prevStateHash
        ++ sha (nftIncoming.flatMap fun kv => ParseHex kv.1)
        ++ sha (ftIncoming.flatMap fun kv => ParseHex kv.1)
        ++ sha (kvFinal.flatMap fun kv =>
              ParseHex kv.1 ++ kv.2.flatMap fun kv2 => ParseHex kv2.1 ++ ParseHex kv2.2)
        ++ sha (kvUpdates.flatMap fun kv =>
              ParseHex kv.1 ++ kv.2.flatMap fun kv2 => ParseHex kv2.1 ++ ParseHex kv2.2)
        ++ sha (kvDeletes.flatMap fun kv =>
              ParseHex kv.1 ++ kv.2.flatMap fun kv2 => ParseHex kv2.1)
        ++ sha (nftFinal.flatMap fun kv => ParseHex kv.1)
        ++ sha (ftFinal.flatMap fun kv => ParseHex kv.1)
        ++ sha (nftUpdates.flatMap fun kv => ParseHex kv.1)
        ++ sha (ftUpdates.flatMap fun kv => ParseHex kv.1)
        ++ sha (nftWithdraws.flatMap fun kv => ParseHex kv.1 ++ SerializeUint32 kv.2)
        ++ sha (ftWithdraws.flatMap fun kv =>
              ParseHex kv.1 ++ kv.2.flatMap fun kv2 =>
                SerializeUint64 (atoiNat kv2.1) ++ SerializeUint64 kv2.2)) := by
  rfl

/-- Lookup after `bmapSet`. -/
theorem bmapGet?_bmapSet {α : Type} (m : BMap α) (k k2 : Bytes) (v : α) :
    bmapGet? (bmapSet m k v) k2 = if k = k2 then some v else bmapGet? m k2 := by
  induction m with
  | nil =>
      by_cases h : k = k2 <;> simp [bmapSet, bmapGet?, h]
  | cons hd tl ih =>
      obtain ⟨ka, va⟩ := hd
      by_cases hka : ka = k
      · subst hka
        by_cases h : ka = k2 <;> simp [bmapSet, bmapGet?, h]
      · by_cases h2 : ka = k2
        · subst h2
          have hk2 : ¬ k = ka := fun he => hka he.symm
          simp [bmapSet, bmapGet?, hka, hk2]
        · simp [bmapSet, bmapGet?, hka, h2, ih]

/-- Appending a fresh key at the end of a `std::map` entry list. -/
theorem bmapGet?_append_single {α : Type} (m : BMap α) (k k2 : Bytes) (v : α)
    (hm : bmapGet? m k = none) :
    bmapGet? (m ++ [(k, v)]) k2 = if k = k2 then some v else bmapGet? m k2 := by
  induction m with
  | nil => by_cases h : k = k2 <;> simp [bmapGet?, h]
  | cons hd tl ih =>
      obtain ⟨ka, va⟩ := hd
      simp only [bmapGet?] at hm
      by_cases hka : ka = k
      · simp [hka] at hm
      · simp only [if_neg hka] at hm
        by_cases h2 : ka = k2
        · have hkk2 : ¬ k = k2 := fun he => hka (he ▸ h2)
          simp [bmapGet?, h2, hkk2]
        · simp [bmapGet?, h2, ih hm]

/-- Lookup after a non-replacing `std::map` insertion: the key maps to its
prior value if it had one, to the inserted value otherwise. -/
theorem bmapGet?_bmapInsertNoReplace {α : Type} (m : BMap α) (k k2 : Bytes) (v : α) :
    bmapGet? (bmapInsertNoReplace m k v) k2 =
      if k = k2 then some ((bmapGet? m k).getD v) else bmapGet? m k2 := by
  unfold bmapInsertNoReplace
  cases hm : bmapGet? m k with
  | some w =>
      simp only [hm, Option.isSome_some, if_true, Option.getD_some]
      by_cases h : k = k2
      · subst h; simp [hm]
      · simp [h]
  | none =>
      simp only [hm, Option.isSome_none, Bool.false_eq_true, if_false, Option.getD_none]
      exact bmapGet?_append_single m k k2 v hm

/-- Appending a fresh output index at the end of the inner map. -/
theorem nmapGet?_append_single (m : NMap) (k k2 : Nat) (v : Nat)
    (hm : nmapGet? m k = none) :
    nmapGet? (m ++ [(k, v)]) k2 = if k = k2 then some v else nmapGet? m k2 := by
  induction m with
  | nil => by_cases h : k = k2 <;> simp [nmapGet?, h]
  | cons hd tl ih =>
      obtain ⟨ka, va⟩ := hd
      simp only [nmapGet?] at hm
      by_cases hka : ka = k
      · simp [hka] at hm
      · simp only [if_neg hka] at hm
        by_cases h2 : ka = k2
        · have hkk2 : ¬ k = k2 := fun he => hka (he ▸ h2)
          simp [nmapGet?, h2, hkk2]
        · simp [nmapGet?, h2, ih hm]

/-- Lookup after a non-replacing insertion on output indices. -/
theorem nmapGet?_nmapInsertNoReplace (m : NMap) (k k2 : Nat) (v : Nat) :
    nmapGet? (nmapInsertNoReplace m k v) k2 =
      if k = k2 then some ((nmapGet? m k).getD v) else nmapGet? m k2 := by
  unfold nmapInsertNoReplace
  cases hm : nmapGet? m k with
  | some w =>
      simp only [hm, Option.isSome_some, if_true, Option.getD_some]
      by_cases h : k = k2
      · subst h; simp [hm]
      · simp [h]
  | none =>
      simp only [hm, Option.isSome_none, Bool.false_eq_true, if_false, Option.getD_none]
      exact nmapGet?_append_single m k k2 v hm

/-- C2: `OP_NFT_WITHDRAW` rejects an input that satisfies every
precondition of the claim. The stack holds the output index `0` (empty
minimal encoding) below a 36-byte token id owned by the contract, and the
transaction has one output; the source nevertheless fails with
INVALID_ATOMICAL_REF_SIZE, because it applies the 36-byte check (and the
index decode) to `stacktop(-2)`, the output-index element, instead of the
token id on top. -/
theorem opNftWithdraw_rejects_valid_withdraw :
    evalOpNftWithdraw ⟨[], [⟨5, []⟩]⟩
        ⟨[], [(uint288GetHex (List.range 36), true)], [], [], [], []⟩
        [[], List.range 36] =
      .error .INVALID_ATOMICAL_REF_SIZE := by
  rfl

/-- C4 counterexample: two successive successful `OP_FT_WITHDRAW`
executions for the same token id and output index (amounts 5 then 3, from
a balance of 10 against an output worth 100). Both succeed, but after the
second one the withdraw map still records amount 5 for (id, 0):
`std::map::insert` does not overwrite, so the second withdrawal is not
reflected in the emitted ftWithdraws map. -/
theorem ftWithdraw_second_intent_not_recorded :
    (match evalOpFtWithdraw ⟨[], [⟨100, []⟩]⟩
        ⟨[(uint288GetHex (List.range 36), 10)], [], [], [], [], []⟩
        [[5], [], List.range 36] with
     | .ok r1 =>
         match evalOpFtWithdraw ⟨[], [⟨100, []⟩]⟩ r1.1 [[3], [], List.range 36] with
         | .ok r2 => bmapGet? r2.1.ftWithdrawMap (List.range 36)
         | .error _ => none
     | .error _ => none) = some [(0, 5)] ∧ [(0, 5)] ≠ [(0, 3)] := by
  exact ⟨rfl, by decide⟩

/-- Characterization of a successful `contractWithdrawFt`: positive amount
within the available balance; the balance is decremented (erased at zero),
the updates record the new balance, and the withdraw map records the
amount for (id, index) unless an intent for that pair already existed, in
which case the earlier amount stays. -/
theorem contractWithdrawFt_eq_some (st : TokenState) (ftId : Bytes)
    (index amount : Nat) (st2 : TokenState)
    (h : contractWithdrawFt st ftId index amount = some st2) :
    0 < amount ∧
    ∃ bal : Nat, jget? st.ftState (uint288GetHex ftId) = some bal ∧ amount ≤ bal ∧
      st2.ftState = (if bal - amount = 0 then jerase st.ftState (uint288GetHex ftId)
        else jinsert st.ftState (uint288GetHex ftId) (bal - amount)) ∧
      st2.ftBalancesUpdates =
        jinsert st.ftBalancesUpdates (uint288GetHex ftId) (bal - amount) ∧
      nmapGet? ((bmapGet? st2.ftWithdrawMap ftId).getD []) index =
        some ((nmapGet? ((bmapGet? st.ftWithdrawMap ftId).getD []) index).getD amount) ∧
      st2.nftState = st.nftState ∧ st2.nftBalancesUpdates = st.nftBalancesUpdates ∧
      st2.nftWithdrawMap = st.nftWithdrawMap := by
  unfold contractWithdrawFt at h
  dsimp only at h
  split at h
  · exact absurd h (by simp)
  · rename_i hamount
    split at h
    · exact absurd h (by simp)
    · rename_i bal hbal
      split at h
      · exact absurd h (by simp)
      · rename_i hlt
        refine ⟨Nat.pos_of_ne_zero hamount, bal, hbal, Nat.le_of_not_lt hlt, ?_⟩
        obtain rfl : _ = st2 := Option.some_injective _ h
        refine ⟨rfl, rfl, ?_, rfl, rfl, rfl⟩
        simp [bmapGet?_bmapSet, nmapGet?_nmapInsertNoReplace,
          bmapGet?_bmapInsertNoReplace]

/-- C4 (amended): every successful `OP_FT_WITHDRAW` had a 36-byte token id
on top of the stack, a valid output index, an amount with
0 < amount ≤ outputs[outIdx].value, and a covering balance; afterwards the
balance is decremented (the entry removed at zero), ftUpdates holds the
new balance, the three operands are consumed, and the withdraw map maps
(id, outIdx) to the amount unless an intent for that pair already existed,
in which case the earlier amount is left in place. -/
theorem evalOpFtWithdraw_success_spec (tx : AvmTx) (st st2 : TokenState)
    (stack stack2 : List Bytes)
    (h : evalOpFtWithdraw tx st stack = .ok (st2, stack2)) :
    3 ≤ stack.length ∧
    (stacktop stack 1).length = 36 ∧
    stack2 = stack.dropLast.dropLast.dropLast ∧
    ∃ sn1 sn2 : CScriptNum,
      scriptNumFromBytes (stacktop stack 2) 100000 = .ok sn2 ∧
      scriptNumFromBytes (stacktop stack 3) 100000 = .ok sn1 ∧
      0 ≤ sn2.getint ∧ sn2.getint < (tx.vout.length : Int) ∧
      0 < sn1.getint ∧
      sn1.getint ≤ (tx.vout.getD sn2.getint.toNat ⟨0, []⟩).nValue ∧
      ∃ bal : Nat,
        jget? st.ftState (uint288GetHex (stacktop stack 1)) = some bal ∧
        sn1.getint.toNat ≤ bal ∧
        st2.ftState = (if bal - sn1.getint.toNat = 0 then
            jerase st.ftState (uint288GetHex (stacktop stack 1))
          else jinsert st.ftState (uint288GetHex (stacktop stack 1)) (bal - sn1.getint.toNat)) ∧
        st2.ftBalancesUpdates = jinsert st.ftBalancesUpdates
          (uint288GetHex (stacktop stack 1)) (bal - sn1.getint.toNat) ∧
        nmapGet? ((bmapGet? st2.ftWithdrawMap (stacktop stack 1)).getD []) sn2.getint.toNat =
          some ((nmapGet? ((bmapGet? st.ftWithdrawMap (stacktop stack 1)).getD [])
            sn2.getint.toNat).getD sn1.getint.toNat) := by
  unfold evalOpFtWithdraw at h
  dsimp only at h
  split at h
  · exact absurd h (by simp)
  · rename_i hlen
    split at h
    · exact absurd h (by simp)
    · rename_i hlen36
      split at h
      · exact absurd h (by simp)
      · rename_i sn2 hsn2
        split at h
        · exact absurd h (by simp)
        · rename_i hidx
          split at h
          · exact absurd h (by simp)
          · rename_i sn1 hsn1
            split at h
            · exact absurd h (by simp)
            · rename_i hamt
              split at h
              · exact absurd h (by simp)
              · rename_i stw hw
                obtain ⟨hst, hsk⟩ := Prod.mk.injEq .. |>.mp (Except.ok.inj h)
                subst hst
                subst hsk
                push_neg at hidx hamt
                obtain ⟨hpos, ⟨bal, hbal, hble, hst, hupd, hmap, _, _, _⟩⟩ :=
                  contractWithdrawFt_eq_some st (stacktop stack 1) sn2.getint.toNat
                    sn1.getint.toNat stw hw
                refine ⟨Nat.le_of_not_lt hlen, by omega, rfl,
                  sn1, sn2, hsn2, hsn1, hidx.1, hidx.2, hamt.1, hamt.2,
                  bal, hbal, hble, hst, hupd, hmap⟩

/-- Witness for C4 at a concrete run: withdraw 5 of a balance of 10 to
output 0 (worth 100); the run succeeds and the characterization applies. -/
theorem evalOpFtWithdraw_success_spec_witness :
    (stacktop [[5], [], List.range 36] 1).length = 36 ∧
    3 ≤ ([[5], [], List.range 36] : List Bytes).length :=
  have happ := evalOpFtWithdraw_success_spec ⟨[], [⟨100, []⟩]⟩
    ⟨[(uint288GetHex (List.range 36), 10)], [], [], [], [], []⟩
    ⟨[(uint288GetHex (List.range 36), 5)], [], [(uint288GetHex (List.range 36), 5)], [],
      [(List.range 36, [(0, 5)])], []⟩
    [[5], [], List.range 36] [] (by rfl)
  ⟨happ.2.1, happ.1⟩

/-- C3 counterexample: a run where the signature is present (first
sig-OP_RETURN output), the pubKey is supplied, both encodings pass and
verification succeeds; OP_CHECKAUTHSIGVERIFY returns the stack with the
validated pubKey pushed, not the unchanged empty stack the claim
requires. -/
theorem checkAuthSigVerify_leaves_pubkey_on_stack :
    getAuthSig [⟨7, [106, 3, 115, 105, 103, 1, 170]⟩] = .ok (some [170]) ∧
    evalCheckAuthSig (fun _ => []) (fun _ _ _ => true) (fun _ _ _ => true)
        (fun _ => true) (fun _ => true) true (some [170]) [2] [] [] = .ok [[2]] ∧
    ([[2]] : List Bytes) ≠ [] :=
  ⟨rfl, rfl, by decide⟩

/-- C3 (amended): with an auth signature (the one extracted from the first
sig-OP_RETURN output) and a non-empty auth pubKey present and both
encoding checks passing, OP_CHECKAUTHSIG and OP_CHECKAUTHSIGVERIFY behave
identically: the signature is verified against SHA-256 of the auth
message, with Schnorr iff the signature is 64 bytes and ECDSA otherwise;
on success both push the validated pubKey onto the stack (the VERIFY
variant performs no pop), and on verification failure both fail with
INVALID_AVM_CHECKAUTHSIGNULL. -/
theorem evalCheckAuthSig_spec (sha : Bytes → Bytes)
    (schnorrV ecdsaV : Bytes → Bytes → Bytes → Bool)
    (cds cpk : Bytes → Bool) (isVerify : Bool) (tx : AvmTx)
    (fullScript sig pubKey message : Bytes) (stack : List Bytes)
    (hsig : getAuthSig tx.vout = .ok (some sig))
    (hpk : pubKey ≠ [])
    (hcds : cds sig = true) (hcpk : cpk pubKey = true)
    (hmsg : getAuthMessage tx fullScript = .ok message) :
    evalCheckAuthSig sha schnorrV ecdsaV cds cpk isVerify (some sig) pubKey
        message stack =
      if (if sig.length = 64 then schnorrV pubKey sig (sha message)
          else ecdsaV pubKey sig (sha message)) then .ok (stack ++ [pubKey])
      else .error .INVALID_AVM_CHECKAUTHSIGNULL := by
  unfold evalCheckAuthSig verifySignature
  simp [hpk, hcds, hcpk]

/-- Witness for C3 at concrete inputs: one sig-OP_RETURN output carrying
the 1-byte signature 0xaa, pubKey [0x02], always-true primitives; the
plain variant succeeds and pushes the pubKey. -/
theorem evalCheckAuthSig_spec_witness :
    evalCheckAuthSig (fun _ => []) (fun _ _ _ => true) (fun _ _ _ => true)
        (fun _ => true) (fun _ => true) false (some [170]) [2] [0, 0, 0, 0] [] =
      .ok [[2]] := by
  have h := evalCheckAuthSig_spec (fun _ => []) (fun _ _ _ => true)
    (fun _ _ _ => true) (fun _ => true) (fun _ => true) false
    ⟨[], [⟨7, [106, 3, 115, 105, 103, 1, 170]⟩]⟩ [] [170] [2] [0, 0, 0, 0] []
    rfl (by decide) rfl rfl rfl
  simpa using h

/-- C7: when the unlock script is push-only and both evaluations return
stacks, the verdict of `VerifyScriptAvm` is decided by the final stack:
success iff it is non-empty with a true top and depth exactly 1; an empty
stack or a false top is EVAL_FALSE, and a true top with depth above 1 is
CLEANSTACK. -/
theorem verifyScriptAvm_final_stack_verdict
    (e : List Bytes → Bytes → Except ScriptError (List Bytes))
    (unlock lock : Bytes) (st1 st2 : List Bytes)
    (hpush : isPushOnly unlock = true)
    (h1 : e [] unlock = .ok st1) (h2 : e st1 lock = .ok st2) :
    (verifyScriptAvm e unlock lock = .ok () ↔
      st2 ≠ [] ∧ CastToBool (st2.getLastD []) = true ∧ st2.length = 1) ∧
    (st2 = [] ∨ CastToBool (st2.getLastD []) = false →
      verifyScriptAvm e unlock lock = .error .EVAL_FALSE) ∧
    (CastToBool (st2.getLastD []) = true ∧ 1 < st2.length →
      verifyScriptAvm e unlock lock = .error .CLEANSTACK) := by
  have hv : verifyScriptAvm e unlock lock =
      (if st2.isEmpty then .error .EVAL_FALSE
       else if CastToBool (st2.getLastD []) = false then .error .EVAL_FALSE
       else if st2.length ≠ 1 then .error .CLEANSTACK else .ok ()) := by
    unfold verifyScriptAvm
    rw [hpush]
    simp only [not_true, if_false, h1, h2]
  rw [hv]
  by_cases hemp : st2.isEmpty
  · have hnil : st2 = [] := List.isEmpty_iff.mp hemp
    subst hnil
    simp [CastToBool]
  · have hne : st2 ≠ [] := fun he => by simp [he] at hemp
    rw [if_neg hemp]
    by_cases htop : CastToBool (st2.getLastD []) = false
    · rw [if_pos htop]
      refine ⟨⟨fun hco => absurd hco (by simp),
          fun hc => absurd (htop.symm.trans hc.2.1) (by decide)⟩,
        fun _ => rfl, fun hc => absurd (htop.symm.trans hc.1) (by decide)⟩
    · have htrue : CastToBool (st2.getLastD []) = true := by
        cases hcb : CastToBool (st2.getLastD []) with
        | false => exact absurd hcb htop
        | true => rfl
      rw [if_neg htop]
      by_cases hlen : st2.length = 1
      · rw [if_neg (by simp [hlen])]
        refine ⟨⟨fun _ => ⟨hne, htrue, hlen⟩, fun _ => rfl⟩, ?_, ?_⟩
        · rintro (hnil | hcf)
          · exact absurd hnil hne
          · exact absurd (htrue.symm.trans hcf) (by decide)
        · rintro ⟨-, hgt⟩
          exact absurd hgt (by omega)
      · rw [if_pos hlen]
        refine ⟨⟨fun hco => absurd hco (by simp), fun hc => absurd hc.2.2 hlen⟩,
          ?_, fun _ => rfl⟩
        rintro (hnil | hcf)
        · exact absurd hnil hne
        · exact absurd (htrue.symm.trans hcf) (by decide)

/-- Witness for C7: the constant evaluator returning the singleton true
stack, an empty (push-only) unlock and lock; verification succeeds. -/
theorem verifyScriptAvm_final_stack_verdict_witness :
    verifyScriptAvm (fun _ _ => .ok [[1]]) [] [] = .ok () := by
  have h := verifyScriptAvm_final_stack_verdict (fun _ _ => .ok [[1]]) [] []
    [[1]] [[1]] (by simp [isPushOnly]) rfl rfl
  exact h.1.mpr ⟨by decide, by decide, by decide⟩

/-- C10: `IsSigOpReturn` reads past the end of the script buffer on short
OP_RETURN scripts. On the 1-byte script [OP_RETURN] the read of
`*(begin() + 1)` is out of bounds, and on the 4-byte script whose bytes
match the sig marker prefix the read of `*(begin() + 4)` is: neither
returns false within the buffer as the claim requires. `getAuthSig` calls
this on every attacker-supplied output script. -/
theorem isSigOpReturn_reads_past_end :
    isSigOpReturn [106] = .error () ∧ ([106] : Bytes).length < 5 ∧
    isUnspendable [106] = true ∧
    isSigOpReturn [106, 3, 115, 105] = .error () ∧
    getAuthSig [⟨0, [106]⟩] = .error () := by
  exact ⟨rfl, by decide, rfl, rfl, rfl⟩

/-- Shape of the serialization loop output for a nonzero magnitude: a
byte string ending in a sign byte whose bit 7 is the sign, whose masked
little-endian value is the magnitude, and which is minimal (a zero-valued
last byte is only emitted after a byte with bit 7 set). -/
theorem serLoop_spec (m : Nat) (neg : Bool) (hm : m ≠ 0) :
    ∃ pre last, serLoop m neg = pre ++ [last] ∧ (128 ≤ last ↔ neg = true) ∧
      last < 256 ∧ fromLE (pre ++ [last % 128]) = m ∧
      (last % 128 = 0 → ∃ pre2 p, pre = pre2 ++ [p] ∧ 128 ≤ p) := by
  induction m using Nat.strong_induction_on with
  | _ m ih =>
    rw [serLoop, dif_neg hm]
    dsimp only
    by_cases hrest : m / 256 ≠ 0
    · rw [if_pos hrest]
      obtain ⟨pre, last, hS, hsign, hlt, hmag, hmin⟩ :=
        ih (m / 256) (Nat.div_lt_self (Nat.pos_of_ne_zero hm) (by norm_num)) hrest
      refine ⟨m % 256 :: pre, last, ?_, hsign, hlt, ?_, ?_⟩
      · rw [hS]
        rfl
      · have hstep : fromLE ((m % 256 :: pre) ++ [last % 128]) =
            m % 256 + 256 * fromLE (pre ++ [last % 128]) := rfl
        rw [hstep, hmag]
        exact Nat.mod_add_div m 256
      · intro hl
        obtain ⟨pre2, p, hpre, hp⟩ := hmin hl
        exact ⟨m % 256 :: pre2, p, by rw [hpre]; rfl, hp⟩
    · rw [if_neg hrest]
      push_neg at hrest
      have hm256 : m < 256 := (Nat.div_eq_zero_iff (by norm_num)).mp hrest
      by_cases h128 : 128 ≤ m % 256
      · rw [if_pos h128]
        refine ⟨[m % 256], if neg then 128 else 0, rfl, ?_, ?_, ?_, ?_⟩
        · cases neg
          · simp
          · simp
        · cases neg
          · norm_num
          · norm_num
        · cases neg
          · show fromLE [m % 256, 0 % 128] = m
            simp [fromLE]
            omega
          · show fromLE [m % 256, 128 % 128] = m
            simp [fromLE]
            omega
        · intro _
          exact ⟨[], m % 256, rfl, h128⟩
      · rw [if_neg h128]
        have hlt128 : m % 256 < 128 := Nat.lt_of_not_le h128
        have hmm : m % 256 = m := Nat.mod_eq_of_lt hm256
        refine ⟨[], if neg then m % 256 + 128 else m % 256, rfl, ?_, ?_, ?_, ?_⟩
        · cases neg
          · simp
            exact hlt128
          · simp
        · cases neg
          · simp
            exact Nat.lt_of_lt_of_le hlt128 (by norm_num)
          · simp
            have h1 : m % 256 + 128 < 128 + 128 := Nat.add_lt_add_right hlt128 128
            exact Nat.lt_of_lt_of_le h1 (by norm_num)
        · cases neg
          · show fromLE [m % 256 % 128] = m
            simp [fromLE]
            rw [Nat.mod_eq_of_lt hlt128, hmm]
          · show fromLE [(m % 256 + 128) % 128] = m
            simp [fromLE]
            rw [Nat.mod_eq_of_lt hlt128, hmm]
        · intro hl
          exfalso
          cases neg
          · simp at hl
            rw [Nat.mod_eq_of_lt hlt128, hmm] at hl
            exact hm hl
          · simp at hl
            rw [Nat.mod_eq_of_lt hlt128, hmm] at hl
            exact hm hl

/-- Deserialization inverts serialization: the minimal-encoding round
trip at the value level. -/
theorem bigintDeserialize_avmSerialize (v : Int) :
    bigintDeserialize (avmSerialize v) = v := by
  unfold avmSerialize
  by_cases hv : v = 0
  · subst hv
    simp [bigintDeserialize]
  · rw [if_neg hv]
    have hm : v.natAbs ≠ 0 := fun h => hv (Int.natAbs_eq_zero.mp h)
    obtain ⟨pre, last, hS, hsign, hlt, hmag, -⟩ := serLoop_spec v.natAbs (decide (v < 0)) hm
    rw [hS]
    unfold bigintDeserialize
    rw [List.getLast?_concat]
    dsimp only
    rw [List.dropLast_concat, hmag]
    by_cases hneg : v < 0
    · rw [if_pos (hsign.mpr (decide_eq_true hneg))]
      omega
    · have hns : ¬ 128 ≤ last := fun hc => by
        have hd := hsign.mp hc
        rw [decide_eq_true_iff] at hd
        exact hneg hd
      rw [if_neg hns]
      omega

/-- The serialization is minimally encoded whenever it fits the cap. -/
theorem isMinimallyEncoded_avmSerialize (v : Int) (cap : Nat)
    (hlen : (avmSerialize v).length ≤ cap) :
    IsMinimallyEncoded (avmSerialize v) cap = true := by
  unfold IsMinimallyEncoded
  rw [if_neg (by omega)]
  unfold avmSerialize at hlen ⊢
  by_cases hv : v = 0
  · simp [hv]
  · rw [if_neg hv] at hlen ⊢
    have hm : v.natAbs ≠ 0 := fun h => hv (Int.natAbs_eq_zero.mp h)
    obtain ⟨pre, last, hS, -, -, -, hmin⟩ := serLoop_spec v.natAbs (decide (v < 0)) hm
    rw [hS, List.getLast?_concat]
    dsimp only
    by_cases hl : last % 128 = 0
    · rw [if_pos hl]
      obtain ⟨pre2, p, hpre, hp⟩ := hmin hl
      rw [List.dropLast_concat, hpre, List.getLast?_concat]
      simpa using hp
    · rw [if_neg hl]

/-- C8: for every `CScriptNum` whose canonical serialization fits the
100000-byte cap, rebuilding a `CScriptNum` from `getvch()` succeeds with
no MinimalEncoding or Overflow exception, the result compares equal to
the original under `operator==` (across tags), and `getvch()` is the
canonical minimal encoding. -/
theorem scriptNum_roundTrip (n : CScriptNum) (h : n.getvch.length ≤ 100000) :
    scriptNumFromBytes n.getvch 100000 = .ok (.big n.value) ∧
    scriptNumEq (.big n.value) n = true ∧
    IsMinimallyEncoded n.getvch 100000 = true := by
  have hmin := isMinimallyEncoded_avmSerialize n.value 100000 h
  refine ⟨?_, ?_, hmin⟩
  · unfold scriptNumFromBytes CScriptNum.getvch at *
    rw [if_neg (by omega), if_neg (by simp [hmin]), bigintDeserialize_avmSerialize]
  · cases n <;> simp [scriptNumEq, CScriptNum.value]

/-- Witness for C8 at the small-tag value 5: `getvch` is the single byte
0x05 and the rebuilt number is the big-tag 5, equal to the original. -/
theorem scriptNum_roundTrip_witness :
    scriptNumFromBytes (CScriptNum.small 5).getvch 100000 = .ok (.big 5) ∧
    scriptNumEq (.big 5) (.small 5) = true :=
  have hvch : (CScriptNum.small 5).getvch = [5] := by
    unfold CScriptNum.getvch avmSerialize CScriptNum.value
    norm_num
    rw [serLoop]
    norm_num
  have h := scriptNum_roundTrip (.small 5) (by rw [hvch]; norm_num)
  ⟨h.1, h.2.1⟩

/-- A first-false position is a position on the stack. -/
theorem firstFalse?_lt (s : List Bool) (i : Nat) (h : firstFalse? s = some i) :
    i < s.length := by
  induction s generalizing i with
  | nil => simp [firstFalse?] at h
  | cons b t ih =>
      unfold firstFalse? at h
      split at h
      · cases h
        simp
      · cases hf : firstFalse? t with
        | none => rw [hf] at h; simp at h
        | some j =>
            rw [hf] at h
            obtain rfl : j + 1 = i := Option.some.inj h
            have := ih j hf
            simp only [List.length_cons]
            omega

/-- No false position means all entries are true. -/
theorem firstFalse?_eq_none_iff (s : List Bool) :
    firstFalse? s = none ↔ s.all id = true := by
  induction s with
  | nil => simp [firstFalse?]
  | cons b t ih =>
      cases b
      · simp [firstFalse?]
      · simpa [firstFalse?] using ih

/-- First false of a stack with one element appended. -/
theorem firstFalse?_concat (s : List Bool) (f : Bool) :
    firstFalse? (s ++ [f]) =
      match firstFalse? s with
      | some i => some i
      | none => if f then none else some s.length := by
  induction s with
  | nil => cases f <;> simp [firstFalse?]
  | cons b t ih =>
      cases b
      · simp [firstFalse?]
      · have hstep : ∀ l : List Bool,
            firstFalse? (true :: l) = (firstFalse? l).map (· + 1) := by
          intro l
          simp [firstFalse?]
        rw [List.cons_append, hstep, hstep, ih]
        cases hf : firstFalse? t with
        | some i => simp
        | none => cases f <;> simp

/-- `push_back` preserves the simulation while the stack is shorter than
`NO_FALSE`. -/
theorem csRel_push (s : List Bool) (cs : ConditionStack) (f : Bool)
    (hrel : csRel s cs) (hs : s.length < NO_FALSE) :
    csRel (s ++ [f]) (cs.push_back f) := by
  obtain ⟨h1, h2⟩ := hrel
  have hNF : NO_FALSE = 4294967295 := rfl
  have hsM : s.length + 1 < 4294967296 := by omega
  constructor
  · show (cs.m_stack_size + 1) % 4294967296 = (s ++ [f]).length
    rw [h1, Nat.mod_eq_of_lt hsM]
    simp
  · show (if cs.m_first_false_pos = NO_FALSE ∧ f = false then cs.m_stack_size
      else cs.m_first_false_pos) = (firstFalse? (s ++ [f])).getD NO_FALSE
    rw [firstFalse?_concat]
    cases hf : firstFalse? s with
    | some i =>
        simp only [hf, Option.getD_some] at h2 ⊢
        have hi : i < NO_FALSE := lt_trans (firstFalse?_lt s i hf) hs
        rw [if_neg (by rintro ⟨hc, -⟩; omega), h2]
    | none =>
        simp only [hf, Option.getD_none] at h2
        cases f
        · rw [if_pos ⟨h2, rfl⟩, h1]
          simp
        · rw [if_neg (by simp), h2]
          simp

/-- `pop_back` preserves the simulation on non-empty stacks. -/
theorem csRel_pop (s : List Bool) (b : Bool) (cs : ConditionStack)
    (hrel : csRel (s ++ [b]) cs) (hs : (s ++ [b]).length < NO_FALSE) :
    csRel s cs.pop_back := by
  obtain ⟨h1, h2⟩ := hrel
  have hNF : NO_FALSE = 4294967295 := rfl
  simp only [List.length_append, List.length_cons, List.length_nil] at h1 hs
  have hnew : (cs.m_stack_size + 4294967296 - 1) % 4294967296 = s.length := by
    omega
  rw [firstFalse?_concat] at h2
  refine ⟨hnew, ?_⟩
  show (if cs.m_first_false_pos = (cs.m_stack_size + 4294967296 - 1) % 4294967296
      then NO_FALSE else cs.m_first_false_pos) = (firstFalse? s).getD NO_FALSE
  rw [hnew]
  cases hf : firstFalse? s with
  | some i =>
      simp only [hf, Option.getD_some] at h2 ⊢
      have hi : i < s.length := firstFalse?_lt s i hf
      rw [if_neg (by omega), h2]
  | none =>
      simp only [hf, Option.getD_none] at h2 ⊢
      cases b
      · rw [if_neg (by simp), Option.getD_some] at h2
        rw [if_pos h2]
      · rw [if_pos rfl, Option.getD_none] at h2
        rw [if_neg (by omega), h2]

/-- `toggle_top` preserves the simulation against flipping the naive top. -/
theorem csRel_toggle (s : List Bool) (b : Bool) (cs : ConditionStack)
    (hrel : csRel (s ++ [b]) cs) (hs : (s ++ [b]).length < NO_FALSE) :
    csRel (s ++ [!b]) cs.toggle_top := by
  obtain ⟨h1, h2⟩ := hrel
  have hNF : NO_FALSE = 4294967295 := rfl
  simp only [List.length_append, List.length_cons, List.length_nil] at h1 hs
  have htop : (cs.m_stack_size + 4294967296 - 1) % 4294967296 = s.length := by
    omega
  rw [firstFalse?_concat] at h2
  unfold ConditionStack.toggle_top
  rw [htop]
  cases hf : firstFalse? s with
  | some i =>
      simp only [hf, Option.getD_some] at h2
      have hi : i < s.length := firstFalse?_lt s i hf
      rw [if_neg (by omega), if_neg (by omega)]
      refine ⟨by simpa using h1, ?_⟩
      rw [firstFalse?_concat]
      simp [hf, h2]
  | none =>
      simp only [hf, Option.getD_none] at h2
      cases b
      · rw [if_neg (by simp), Option.getD_some] at h2
        rw [if_neg (by omega), if_pos h2]
        refine ⟨by simpa using h1, ?_⟩
        rw [firstFalse?_concat]
        simp [hf]
      · rw [if_pos rfl, Option.getD_none] at h2
        rw [if_pos h2]
        refine ⟨by simpa using h1, ?_⟩
        rw [firstFalse?_concat]
        simp [hf, htop]

set_option maxRecDepth 4096 in
/-- The simulation holds along any legal operation sequence whose length
keeps the stack below `NO_FALSE` elements. -/
theorem csRel_run (ops : List CondOp) (s : List Bool) (cs : ConditionStack)
    (hrel : csRel s cs) (hbound : s.length + ops.length < NO_FALSE)
    (hok : naiveOk s ops) :
    csRel (runNaive s ops) (runCS cs ops) := by
  induction ops generalizing s cs with
  | nil => exact hrel
  | cons op rest ih =>
      cases op with
      | push f =>
          have hs : s.length < NO_FALSE := by
            simp only [List.length_cons] at hbound
            omega
          have hb2 : (s ++ [f]).length + rest.length < NO_FALSE := by
            simp only [List.length_append, List.length_cons, List.length_nil] at *
            omega
          have hN : runNaive s (CondOp.push f :: rest) = runNaive (s ++ [f]) rest := by
            simp only [runNaive, naiveStep]
          have hC : runCS cs (CondOp.push f :: rest) = runCS (cs.push_back f) rest := by
            simp only [runCS, csStep]
          rw [hN, hC]
          exact ih (s ++ [f]) (cs.push_back f) (csRel_push s cs f hrel hs) hb2 hok
      | pop =>
          obtain ⟨hne, hok2⟩ := hok
          obtain ⟨t, b, rfl⟩ : ∃ t b, s = t ++ [b] :=
            ⟨s.dropLast, s.getLast hne, (List.dropLast_append_getLast hne).symm⟩
          have hpop := csRel_pop t b cs hrel (by
            simp only [List.length_cons] at hbound
            omega)
          have hb2 : t.length + rest.length < NO_FALSE := by
            simp only [List.length_append, List.length_cons, List.length_nil,
              List.length_cons] at hbound ⊢
            omega
          have hok3 : naiveOk t rest := by
            rw [List.dropLast_concat] at hok2
            exact hok2
          have hrun : runNaive (t ++ [b]) (CondOp.pop :: rest) = runNaive t rest := by
            simp only [runNaive, naiveStep]
            rw [List.dropLast_concat]
          have hC : runCS cs (CondOp.pop :: rest) = runCS cs.pop_back rest := by
            simp only [runCS, csStep]
          rw [hrun, hC]
          exact ih t cs.pop_back hpop hb2 hok3
      | toggle =>
          obtain ⟨hne, hok2⟩ := hok
          obtain ⟨t, b, rfl⟩ : ∃ t b, s = t ++ [b] :=
            ⟨s.dropLast, s.getLast hne, (List.dropLast_append_getLast hne).symm⟩
          have hlast : (t ++ [b]).getLastD false = b := by
            rw [List.getLastD_eq_getLast?, List.getLast?_concat]
            rfl
          have htog := csRel_toggle t b cs hrel (by
            simp only [List.length_cons] at hbound
            omega)
          have hb2 : (t ++ [!b]).length + rest.length < NO_FALSE := by
            simp only [List.length_append, List.length_cons, List.length_nil,
              List.length_cons] at hbound ⊢
            omega
          have hok3 : naiveOk (t ++ [!b]) rest := by
            rw [List.dropLast_concat, hlast] at hok2
            exact hok2
          have hrun : runNaive (t ++ [b]) (CondOp.toggle :: rest) =
              runNaive (t ++ [!b]) rest := by
            simp only [runNaive, naiveStep]
            rw [List.dropLast_concat, hlast]
          have hC : runCS cs (CondOp.toggle :: rest) = runCS cs.toggle_top rest := by
            simp only [runCS, csStep]
          rw [hrun, hC]
          exact ih (t ++ [!b]) cs.toggle_top htog hb2 hok3

/-- Pushing true `k` times from an all-true stack: the size advances with
`uint32_t` wraparound and everything stays true. -/
theorem runCS_replicate_push_true (k : Nat) (s : Nat) (hs : s < 4294967296) :
    runCS ⟨s, NO_FALSE⟩ (List.replicate k (CondOp.push true)) =
      ⟨(s + k) % 4294967296, NO_FALSE⟩ := by
  induction k generalizing s with
  | zero =>
      show (⟨s, NO_FALSE⟩ : ConditionStack) = _
      have hz : (s + 0) % 4294967296 = s := by omega
      rw [hz]
  | succ n ih =>
      rw [List.replicate_succ]
      have hstep : runCS ⟨s, NO_FALSE⟩
          (CondOp.push true :: List.replicate n (CondOp.push true)) =
          runCS ⟨(s + 1) % 4294967296, NO_FALSE⟩ (List.replicate n (CondOp.push true)) := by
        simp [runCS, csStep, ConditionStack.push_back]
      rw [hstep, ih ((s + 1) % 4294967296) (Nat.mod_lt _ (by norm_num))]
      congr 1
      omega

/-- The naive stack grows by exactly one element per push. -/
theorem runNaive_replicate_push_length (k : Nat) (s : List Bool) (f : Bool) :
    (runNaive s (List.replicate k (CondOp.push f))).length = s.length + k := by
  induction k generalizing s with
  | zero => simp [runNaive]
  | succ n ih =>
      rw [List.replicate_succ]
      have hstep : runNaive s (CondOp.push f :: List.replicate n (CondOp.push f)) =
          runNaive (s ++ [f]) (List.replicate n (CondOp.push f)) := by
        simp only [runNaive, naiveStep]
      rw [hstep, ih]
      simp only [List.length_append, List.length_cons, List.length_nil]
      omega

/-- Pure push sequences are always legal. -/
theorem naiveOk_replicate_push (k : Nat) (s : List Bool) (f : Bool) :
    naiveOk s (List.replicate k (CondOp.push f)) := by
  induction k generalizing s with
  | zero => trivial
  | succ n ih =>
      rw [List.replicate_succ]
      show naiveOk (s ++ [f]) (List.replicate n (CondOp.push f))
      exact ih (s ++ [f])

/-- A run shrinks or grows the naive stack by at most one per operation. -/
theorem runNaive_length_le (ops : List CondOp) (s : List Bool) :
    (runNaive s ops).length ≤ s.length + ops.length := by
  induction ops generalizing s with
  | nil => simp [runNaive]
  | cons op rest ih =>
      have hstep : runNaive s (op :: rest) = runNaive (naiveStep s op) rest := by
        simp only [runNaive]
      rw [hstep]
      have h1 : (naiveStep s op).length ≤ s.length + 1 := by
        cases op with
        | push f => simp [naiveStep]
        | pop =>
            simp only [naiveStep, List.length_dropLast]
            omega
        | toggle =>
            simp only [naiveStep, List.length_append, List.length_dropLast,
              List.length_cons, List.length_nil]
            omega
      calc (runNaive (naiveStep s op) rest).length
          ≤ (naiveStep s op).length + rest.length := ih _
        _ ≤ s.length + 1 + rest.length := by omega
        _ = s.length + (op :: rest).length := by
            simp only [List.length_cons]
            omega

/-- C9 counterexample: after 2^32 pushes of true -- each a legal
operation on any stack, no pop or toggle involved -- the optimized
stack's `uint32_t` size wraps to 0, so `empty()` reports true while the
naive materialized stack holds 2^32 elements and is not empty. -/
theorem conditionStack_not_equiv_at_wraparound :
    (runCS ⟨0, NO_FALSE⟩ (List.replicate 4294967296 (CondOp.push true))).empty = true ∧
    (runNaive [] (List.replicate 4294967296 (CondOp.push true))).isEmpty = false := by
  constructor
  · rw [runCS_replicate_push_true 4294967296 0 (by norm_num)]
    show ConditionStack.empty ⟨(0 + 4294967296) % 4294967296, NO_FALSE⟩ = true
    simp [ConditionStack.empty]
  · have hl := runNaive_replicate_push_length 4294967296 [] true
    cases hn : runNaive [] (List.replicate 4294967296 (CondOp.push true)) with
    | nil =>
        rw [hn] at hl
        exact absurd hl (by norm_num)
    | cons a t => simp

/-- C9 (amended): for every sequence of fewer than 2^32 - 1 operations,
with `pop_back` and `toggle_top` applied only when the naive stack is
non-empty, the optimized condition stack's `empty()` and `all_true()`
agree with the naive materialized stack of booleans. -/
theorem conditionStack_equiv_naive (ops : List CondOp)
    (hbound : ops.length < 4294967295) (hok : naiveOk [] ops) :
    (runCS ⟨0, NO_FALSE⟩ ops).empty = (runNaive [] ops).isEmpty ∧
    (runCS ⟨0, NO_FALSE⟩ ops).all_true = (runNaive [] ops).all id := by
  have hrel0 : csRel [] ⟨0, NO_FALSE⟩ := ⟨rfl, rfl⟩
  have h := csRel_run ops [] ⟨0, NO_FALSE⟩ hrel0 (by simpa [NO_FALSE] using hbound) hok
  obtain ⟨h1, h2⟩ := h
  constructor
  · cases hn : runNaive [] ops with
    | nil =>
        rw [hn] at h1
        simp [ConditionStack.empty, h1]
    | cons a t =>
        rw [hn] at h1
        simp [ConditionStack.empty, h1]
  · have hlen := runNaive_length_le ops []
    cases hf : firstFalse? (runNaive [] ops) with
    | none =>
        rw [hf] at h2
        have hall : (runNaive [] ops).all id = true := (firstFalse?_eq_none_iff _).mp hf
        simp [ConditionStack.all_true, h2, hall]
    | some i =>
        rw [hf] at h2
        have hi : i < (runNaive [] ops).length := firstFalse?_lt _ _ hf
        have hiNF : i ≠ NO_FALSE := by
          have h3 : (runNaive [] ops).length ≤ ops.length := by simpa using hlen
          show i ≠ 4294967295
          omega
        have hall : (runNaive [] ops).all id = false := by
          cases hA : (runNaive [] ops).all id
          · rfl
          · rw [(firstFalse?_eq_none_iff _).mpr hA] at hf
            exact Option.noConfusion hf
        simp only [ConditionStack.all_true, h2, Option.getD_some, hall]
        simp [hiNF]

/-- Witness for C9 at a concrete legal sequence: push true, push false,
toggle the top, pop; both sides report an all-true, non-empty stack. -/
theorem conditionStack_equiv_naive_witness :
    (runCS ⟨0, NO_FALSE⟩
        [CondOp.push true, CondOp.push false, CondOp.toggle, CondOp.pop]).all_true =
      (runNaive [] [CondOp.push true, CondOp.push false, CondOp.toggle, CondOp.pop]).all id := by
  have h := conditionStack_equiv_naive
    [CondOp.push true, CondOp.push false, CondOp.toggle, CondOp.pop]
    (by norm_num) (by simp [naiveOk, naiveStep])
  exact h.2

end AVM
